import Mathlib

/-!
# Verification of the `gh_util` typed GitHub client

A shallow embedding of the parts of `src/gh_util/functions.py`,
`src/gh_util/utils.py` and `src/gh_util/types/core.py` that the
specification's testable properties talk about, together with proofs (or
refutations) of those properties.

Conventions of the embedding:

* The remote GitHub service is an explicit parameter: for the label
  functions, an issue's remote label state is the finite set of label-name
  strings attached to the issue (the HTTP handlers identify issue labels by
  name: `DELETE .../labels/<name>`, `POST .../labels [names]`); for the
  pagination functions the remote is the full list of items the paged
  endpoint enumerates; for directory traversal the remote is a map from a
  path to the directory listing at that path.
* Each function that mutates remote state returns the new state together
  with the list of mutating HTTP requests it issued (its `trace`) and its
  Python return value.
* Fallible code returns `Except`.
-/
/-- A mutating HTTP request issued by one of the label functions:
`DELETE /repos/o/r/issues/i/labels/<name>` or
`POST /repos/o/r/issues/i/labels` with a JSON list of names. -/
inductive LabelOp where
  | deleteLabel (name : String)
  | postLabels (names : Finset String)
deriving DecidableEq

/-- Embedding of `add_labels_to_issue` (functions.py:191-246).

The Python function GETs the issue's current labels (`names`, a set of
name strings — here the remote state itself), computes
`labels_to_add := new_labels - names`, and if that set is non-empty (Python
truthiness of a set) POSTs exactly the delta and returns `True`; otherwise
it issues no mutating request and returns `False`.  The POST adds the
delta names to the issue's label set. -/
def add_labels_to_issue (state : Finset String) (new_labels : Finset String) :
    Finset String × List LabelOp × Bool :=
  let names := state
  let labels_to_add := new_labels \ names
  if labels_to_add.Nonempty then
    (state ∪ labels_to_add, [LabelOp.postLabels labels_to_add], true)
  else
    (state, [], false)

/-- The delete loop of `update_labels_on_issue` (functions.py:279-283): for
each fetched current label (snapshot `cur`, the issue's label names at
fetch time) whose name is not in the target set `labels`, issue a DELETE,
which removes that name from the remote state. -/
def removeIrrelevant (labels : Finset String) :
    List String → Finset String → Finset String × List LabelOp
  | [], state => (state, [])
  | l :: rest, state =>
    if l ∈ labels then removeIrrelevant labels rest state
    else
      let r := removeIrrelevant labels rest (state.erase l)
      (r.1, LabelOp.deleteLabel l :: r.2)

/-- Embedding of `update_labels_on_issue` (functions.py:249-286): fetch the
issue's current labels (`fetch_repo_issue(...).labels`, whose names
enumerate the remote state; the enumeration order is irrelevant, here the
sorted one so the function stays executable), DELETE every current label
whose name is not in `labels`, then call `add_labels_to_issue` with the
full target set, and return `True` unconditionally. -/
def update_labels_on_issue (state : Finset String) (labels : Finset String) :
    Finset String × List LabelOp × Bool :=
  let current := state.sort (· ≤ ·)
  let r1 := removeIrrelevant labels current state
  let r2 := add_labels_to_issue r1.1 labels
  (r2.1, r1.2 ++ r2.2.1, true)

/-!
## Parsing layer: `parse_as` (utils.py:9-44)

`parse_as(type_, data)` builds a pydantic `TypeAdapter` for the target
type and selects its validator; the validator itself is the external
collaborator here, so it is a parameter `validator` (the claim quantifies
over every record type `T`, i.e. over every validator).  The one piece of
logic owned by `parse_as` is the unwrap rule:

    if get_origin(type_) is list and isinstance(data, dict):
        data = next(iter(data.values()))

`next(iter(d.values()))` is the first value of the mapping, and raises
`StopIteration` on an empty mapping.
-/
/-- A JSON-decoded Python value as `parse_as` receives it. -/
inductive Json where
  | null
  | bool (b : Bool)
  | num (n : Int)
  | str (s : String)
  | arr (items : List Json)
  | obj (fields : List (String × Json))

/-- `isinstance(data, dict)`. -/
def Json.isDict : Json → Bool
  | .obj _ => true
  | _ => false

/-- `next(iter(data.values()))`: the mapping's first value, none when the
mapping is empty (Python raises `StopIteration`). -/
def Json.firstValue : Json → Option Json
  | .obj ((_, v) :: _) => some v
  | _ => none

/-- An exception escaping `parse_as`. -/
inductive PyError where
  | stopIteration
  | validationError (msg : String)
deriving DecidableEq

/-- Embedding of `parse_as` (utils.py:9-44).  `isListTarget` is
`get_origin(type_) is list`; `validator` is the selected
`TypeAdapter(type_).validate_<mode>` bound method. -/
def parse_as (isListTarget : Bool) (validator : Json → Except PyError α)
    (data : Json) : Except PyError α :=
  if isListTarget && data.isDict then
    match data.firstValue with
    | some v => validator v
    | none => Except.error PyError.stopIteration
  else
    validator data

/-!
## Label identity (types/core.py:34-41) and `fetch_repo_labels`
(functions.py:165-188)

`GitHubLabel` is a frozen pydantic model with fields `id`, `name`,
`color`, `description` and no custom `__eq__`/`__hash__`, so two labels
are equal exactly when all their fields are equal (pydantic's default
equality; extra input fields are tolerated by the model and not modelled
here).  `fetch_repo_labels` parses the fetched list as `set[GitHubLabel]`:
a Python set deduplicates by that full equality.
-/
/-- Embedding of `GitHubLabel` (types/core.py:34-41). -/
structure GitHubLabel where
  id : Int
  name : String
  color : String
  description : Option String := none
deriving DecidableEq

/-- Embedding of `fetch_repo_labels` (functions.py:165-188): fetch the
repository's labels (the parsed list `data` is the remote response) and
return `parse_as(set[GitHubLabel], data)` — the set of parsed labels. -/
def fetch_repo_labels (data : List GitHubLabel) : Finset GitHubLabel :=
  data.toFinset

/-- Two concrete labels sharing a name but differing in `id` and `color`. -/
def labelBugA : GitHubLabel := { id := 1, name := "bug", color := "f00" }

/-- See `labelBugA`. -/
def labelBugB : GitHubLabel := { id := 2, name := "bug", color := "0f0" }

/-!
## Tag creation (functions.py:739-817) and latest-tag queries
(functions.py:819-867)

`GitHubTag` / `GitHubRef` are imported by functions.py but their class
definitions are not among the repository's staged type files; they are
plain parsed records, modelled from the spec's data model section.
-/
/-- Modelled from the spec: the annotated tag object (`GitHubTag` is
imported by functions.py but not defined in the staged sources) — "Tag/Ref:
reference name and target sha" plus the tag message. -/
structure GitHubTag where
  tag : String
  sha : String
  message : String := ""
deriving DecidableEq

/-- Modelled from the spec: a tag ref (`GitHubRef` is imported by
functions.py but not defined in the staged sources) — "Tag/Ref: reference
name and target sha". -/
structure GitHubRef where
  ref : String
  sha : String
deriving DecidableEq

/-- An `httpx.HTTPStatusError` as `create_repo_tag` inspects it: the
parsed error body's `"message"` field. -/
structure HttpError where
  message : String
deriving DecidableEq

/-- `pat` is a leading segment of `s`. -/
def isLeadingSegment : List Char → List Char → Bool
  | [], _ => true
  | _ :: _, [] => false
  | a :: as, b :: bs => a == b && isLeadingSegment as bs

/-- `pat` occurs contiguously somewhere in `s`. -/
def hasSubstring (pat : List Char) : List Char → Bool
  | [] => isLeadingSegment pat []
  | c :: rest => isLeadingSegment pat (c :: rest) || hasSubstring pat rest

/-- `"Reference already exists" in message` (Python substring test). -/
def mentionsExistingRef (e : HttpError) : Bool :=
  hasSubstring ("Reference already exists".toList) e.message.toList

/-- Embedding of the ref-creation step of `create_repo_tag`
(functions.py:796-816).  `tagResponse` is the tag object parsed from the
successful `POST /git/tags` response; `refResult` is the outcome of the
`POST /git/refs` call.  The Python code is

    try:
        await client.post(".../git/refs", json=...)
    except HTTPStatusError as e:
        if "Reference already exists" in e.response.json()["message"]:
            logger.warning_kv("Tag already exists", ...)
            return GitHubTag.model_validate(response.json())
    logger.info_kv("Tag created", ...)
    return GitHubTag.model_validate(response.json())

— note the `except` block falls through (no `raise`) when the message does
not mention an existing reference, so the error is swallowed and the
success return executes. -/
def create_repo_tag (tagResponse : GitHubTag) (refResult : Except HttpError Unit) :
    Except HttpError GitHubTag :=
  match refResult with
  | Except.ok _ => Except.ok tagResponse
  | Except.error e =>
    if mentionsExistingRef e then
      Except.ok tagResponse
    else
      Except.ok tagResponse

/-- A concrete tag object for evaluating `create_repo_tag`. -/
def tagV1 : GitHubTag := { tag := "v1.0", sha := "a94a8fe5", message := "rel" }

/-- Python's `l[-n:]`: the last `n` elements for `n ≥ 1`, the whole list
for `n = 0` (since `l[-0:] = l[0:]`). -/
def pySliceLast (n : Nat) (l : List α) : List α :=
  if n = 0 then l else l.drop (l.length - n)

/-- Embedding of `fetch_latest_n_repo_tags` (functions.py:852-867): GET
`/repos/o/r/git/refs/tags` with params `per_page=1, order=desc,
sort=created` (plus `q=<pattern> in:ref type:tag` when a pattern is
given); `response` is the parsed response list.  If it is empty, raise
`ValueError` (the spec's `NotFoundError`, kind: no matching tag);
otherwise return `parse_as(list[GitHubRef], tags)[-n:]`. -/
def fetch_latest_n_repo_tags (response : List GitHubRef) (n : Nat) :
    Except String (List GitHubRef) :=
  if response.isEmpty then
    Except.error ("No tags found matching the pattern")
  else
    Except.ok (pySliceLast n response)

/-- The query params `fetch_latest_n_repo_tags` sends, as the code builds
them (functions.py:856-858). -/
def tagQueryParams (pattern : Option String) : List (String × String) :=
  [("per_page", "1"), ("order", "desc"), ("sort", "created")] ++
    (match pattern with
     | some p => [("q", p ++ " in:ref type:tag")]
     | none => [])

/-- Embedding of `fetch_latest_repo_tag` (functions.py:819-849):
`fetch_latest_n_repo_tags(..., n=1)` then `tags[0]`. -/
def fetch_latest_repo_tag (response : List GitHubRef) : Except String GitHubRef :=
  match fetch_latest_n_repo_tags response 1 with
  | Except.error e => Except.error e
  | Except.ok [] => Except.error ("IndexError")
  | Except.ok (t :: _) => Except.ok t

/-!
## Issue/PR pagination: `fetch_repo_issues` (functions.py:78-162)

The paged endpoint `/repos/o/r/issues` is modelled by the full list
`remote` of items it enumerates (already filtered by `state`, which is
passed through verbatim): the response to `page=p, per_page=s` is
`(remote.drop ((p-1)*s)).take s`, and a page past the end is empty — the
remote never signals an end otherwise.  `include_comments` only attaches
fetched comments to an item (it changes no membership or count) and is
not modelled.  The `while` loop is embedded with explicit fuel;
`fetch_repo_issues` supplies `remote.length + 1`, which the termination
theorem shows is always enough. -/
/-- An element of the issues endpoint's response:
`item.get("pull_request") is not None` marks a pull request. -/
structure IssueItem where
  title : String := ""
  pull_request : Option String := none
deriving DecidableEq

/-- `is_pull_request = item.get("pull_request") is not None`. -/
def isPullRequest (item : IssueItem) : Bool :=
  item.pull_request.isSome

/-- The `fetch_type` literal. -/
inductive FetchType where
  | issues
  | pulls
  | all
deriving DecidableEq

/-- The skip condition of the classification branch (functions.py:135-140):
`fetch_type != "all" and (fetch_type == "issues" and is_pull_request or
fetch_type == "pulls" and not is_pull_request)`. -/
def skipItem (ft : FetchType) (item : IssueItem) : Bool :=
  decide (ft ≠ FetchType.all) &&
    ((decide (ft = FetchType.issues) && isPullRequest item) ||
     (decide (ft = FetchType.pulls) && !isPullRequest item))

/-- The `for item in new_items` body (functions.py:132-156): skip items not
matching `fetch_type`, append the rest, `break` as soon as the accumulated
list reaches `n`. -/
def processPage (ft : FetchType) (n : Nat) :
    List IssueItem → List IssueItem → List IssueItem
  | issues, [] => issues
  | issues, item :: rest =>
    if skipItem ft item then processPage ft n issues rest
    else
      let issues' := issues ++ [item]
      if issues'.length = n then issues' else processPage ft n issues' rest

/-- The `while len(issues) < n` loop (functions.py:120-160), with explicit
fuel (`none` = fuel exhausted).  Each iteration requests
`per_page = min(n - len(issues), per_page), page = page`, breaks on an
empty page, classifies and accumulates the page's items, increments
`page`, and re-checks the (dead, since `new_items` is non-empty here)
early-break `fetch_type != "all" and len(new_items) == 0`. -/
def fetchLoop (remote : List IssueItem) (ft : FetchType) (n per_page : Nat) :
    Nat → Nat → List IssueItem → Option (List IssueItem)
  | 0, _, _ => none
  | fuel + 1, page, issues =>
    if issues.length < n then
      let size := min (n - issues.length) per_page
      let new_items := (remote.drop ((page - 1) * size)).take size
      if new_items.isEmpty then
        some issues
      else
        let issues' := processPage ft n issues new_items
        if ft ≠ FetchType.all ∧ new_items.length = 0 then
          some issues'
        else
          fetchLoop remote ft n per_page fuel (page + 1) issues'
    else
      some issues

/-- Embedding of `fetch_repo_issues` (functions.py:78-162): run the
pagination loop from `page = 1` with no accumulated issues.  The supplied
fuel `remote.length + 1` is shown sufficient below. -/
def fetch_repo_issues (remote : List IssueItem) (ft : FetchType)
    (n : Nat) (per_page : Nat) : Option (List IssueItem) :=
  fetchLoop remote ft n per_page (remote.length + 1) 1 []

/-- The number of items of `items` that match `ft`. -/
def countMatching (ft : FetchType) (items : List IssueItem) : Nat :=
  (items.filter (fun it => !skipItem ft it)).length

/-- A concrete pull-request item for the C4 witness. -/
def prItem : IssueItem := { title := "a pr", pull_request := some "url" }

/-- A concrete plain-issue item for the C4 witness. -/
def plainItem : IssueItem := { title := "an issue", pull_request := none }

/-!
## Directory traversal: `fetch_directory_structure` (functions.py:624-690)

The remote contents endpoint is modelled by `fs : String → List DirEntry`,
mapping a path to its listing (`/repos/o/r/contents/<path>?ref=branch`).
`fnmatch.fnmatch(name, pattern)` is an external predicate on names, so the
optional pattern is modelled as `Option (String → Bool)`.  The inner
`traverse_directory` builds the output string by successive `+=`; the
embedding concatenates the same pieces in the same order. -/
/-- `item["type"]`: `"dir"`, `"file"`, or any other value (which the loop
ignores: the `if`/`elif` has no `else`). -/
inductive EntryKind where
  | dir
  | file
  | other
deriving DecidableEq

/-- One element of a directory listing: `item["name"]`, `item["path"]`,
`item["type"]`. -/
structure DirEntry where
  name : String
  path : String
  kind : EntryKind
deriving DecidableEq

/-- `'  ' * level`. -/
def indent (level : Nat) : String :=
  String.join (List.replicate level ("  "))

/-- The filter `pattern and not fnmatch.fnmatch(item["name"], pattern)`
(functions.py:670): true means `continue`. -/
def filteredOut (pattern : Option (String → Bool)) (name : String) : Bool :=
  match pattern with
  | some pm => !pm name
  | none => false

/-- Embedding of the recursive closure `traverse_directory(path, level)`
(functions.py:662-680), applied to a listing: for each item, skip it when
the pattern filters it out; render a `📁` line for a directory and, only
while `level < levels`, recurse into it one level deeper; render a `📄`
line for a file; ignore any other entry type. -/
def traverse_directory (fs : String → List DirEntry)
    (pattern : Option (String → Bool)) (levels : Nat) :
    Nat → List DirEntry → String
  | _, [] => ""
  | level, item :: rest =>
    if filteredOut pattern item.name then
      traverse_directory fs pattern levels level rest
    else
      match item.kind with
      | EntryKind.dir =>
        indent level ++ "📁 " ++ item.name ++ "\n" ++
          (if level < levels then
            traverse_directory fs pattern levels (level + 1) (fs item.path)
          else ("")) ++
          traverse_directory fs pattern levels level rest
      | EntryKind.file =>
        indent level ++ "📄 " ++ item.name ++ "\n" ++
          traverse_directory fs pattern levels level rest
      | EntryKind.other =>
        traverse_directory fs pattern levels level rest
termination_by level items => (levels + 1 - level, items.length)
decreasing_by
  all_goals simp_wf
  all_goals
    first
      | (apply Prod.Lex.left; omega)
      | (apply Prod.Lex.right; omega)

/-- Embedding of `fetch_directory_structure` (functions.py:624-690): run
`traverse_directory(directory_path, 0)`. -/
def fetch_directory_structure (fs : String → List DirEntry)
    (pattern : Option (String → Bool)) (levels : Nat)
    (directory_path : String) : String :=
  traverse_directory fs pattern levels 0 (fs directory_path)

/-- The rendered line of one traversal entry `(level, kind, name)`. -/
def renderEntry : Nat × EntryKind × String → String
  | (level, EntryKind.dir, name) => indent level ++ "📁 " ++ name ++ "\n"
  | (level, EntryKind.file, name) => indent level ++ "📄 " ++ name ++ "\n"
  | (_, EntryKind.other, _) => ""

/-- Concatenation of the rendered lines of a list of entries. -/
def renderEntries : List (Nat × EntryKind × String) → String
  | [] => ""
  | e :: rest => renderEntry e ++ renderEntries rest

/-- The entries `traverse_directory` renders, in rendering order, each
tagged with the indentation level it is rendered at (equal to its depth
below the starting directory). -/
def traverseEntries (fs : String → List DirEntry)
    (pattern : Option (String → Bool)) (levels : Nat) :
    Nat → List DirEntry → List (Nat × EntryKind × String)
  | _, [] => []
  | level, item :: rest =>
    if filteredOut pattern item.name then
      traverseEntries fs pattern levels level rest
    else
      match item.kind with
      | EntryKind.dir =>
        (level, EntryKind.dir, item.name) ::
          ((if level < levels then
              traverseEntries fs pattern levels (level + 1) (fs item.path)
            else []) ++
            traverseEntries fs pattern levels level rest)
      | EntryKind.file =>
        (level, EntryKind.file, item.name) ::
          traverseEntries fs pattern levels level rest
      | EntryKind.other =>
        traverseEntries fs pattern levels level rest
termination_by level items => (levels + 1 - level, items.length)
decreasing_by
  all_goals simp_wf
  all_goals
    first
      | (apply Prod.Lex.left; omega)
      | (apply Prod.Lex.right; omega)

theorem add_labels_to_issue_of_subset (S N : Finset String) (h : N ⊆ S) :
    add_labels_to_issue S N = (S, [], false) := by
  unfold add_labels_to_issue
  rw [if_neg]
  rw [Finset.not_nonempty_iff_eq_empty, Finset.sdiff_eq_empty_iff_subset]
  exact h

theorem add_labels_to_issue_of_nonempty (S N : Finset String)
    (h : (N \ S).Nonempty) :
    add_labels_to_issue S N = (S ∪ N \ S, [LabelOp.postLabels (N \ S)], true) := by
  unfold add_labels_to_issue
  rw [if_pos h]

theorem add_labels_to_issue_superset (S N : Finset String) :
    N ⊆ (add_labels_to_issue S N).1 := by
  by_cases h : (N \ S).Nonempty
  · rw [add_labels_to_issue_of_nonempty S N h]
    intro x hx
    by_cases hxS : x ∈ S
    · exact Finset.mem_union_left _ hxS
    · exact Finset.mem_union_right _ (Finset.mem_sdiff.mpr ⟨hx, hxS⟩)
  · rw [Finset.not_nonempty_iff_eq_empty, Finset.sdiff_eq_empty_iff_subset] at h
    rw [add_labels_to_issue_of_subset S N h]
    exact h

theorem add_labels_to_issue_trace_shape (S N : Finset String) :
    ∀ op ∈ (add_labels_to_issue S N).2.1, ∃ ns, op = LabelOp.postLabels ns := by
  unfold add_labels_to_issue
  by_cases h : (N \ S).Nonempty
  · rw [if_pos h]
    rintro op hop
    rw [List.mem_singleton] at hop
    exact ⟨N \ S, hop⟩
  · rw [if_neg h]
    rintro op hop
    exact absurd hop (List.not_mem_nil op)

theorem removeIrrelevant_state (labels : Finset String) (cur : List String)
    (state : Finset String) :
    (removeIrrelevant labels cur state).1 =
      state \ (cur.filter (fun l => l ∉ labels)).toFinset := by
  induction cur generalizing state with
  | nil => simp [removeIrrelevant]
  | cons l rest ih =>
    by_cases hl : l ∈ labels
    · simp only [removeIrrelevant, if_pos hl, ih]
      congr 1
      simp [List.filter_cons, hl]
    · simp only [removeIrrelevant, if_neg hl, ih]
      rw [List.filter_cons_of_pos (by simpa using hl)]
      ext x
      simp only [Finset.mem_sdiff, Finset.mem_erase, List.toFinset_cons,
        Finset.mem_insert]
      constructor
      · rintro ⟨⟨hx, hxs⟩, hmem⟩
        exact ⟨hxs, fun h => h.elim (fun h => hx h) hmem⟩
      · rintro ⟨hxs, hmem⟩
        exact ⟨⟨fun h => hmem (Or.inl h), hxs⟩, fun h => hmem (Or.inr h)⟩

theorem removeIrrelevant_trace (labels : Finset String) (cur : List String)
    (state : Finset String) (n : String) :
    LabelOp.deleteLabel n ∈ (removeIrrelevant labels cur state).2 ↔
      n ∈ cur ∧ n ∉ labels := by
  induction cur generalizing state with
  | nil => simp [removeIrrelevant]
  | cons l rest ih =>
    by_cases hl : l ∈ labels
    · simp only [removeIrrelevant, if_pos hl, ih, List.mem_cons]
      constructor
      · rintro ⟨h1, h2⟩; exact ⟨Or.inr h1, h2⟩
      · rintro ⟨h1 | h1, h2⟩
        · exact absurd (h1 ▸ hl) h2
        · exact ⟨h1, h2⟩
    · simp only [removeIrrelevant, if_neg hl, List.mem_cons,
        LabelOp.deleteLabel.injEq, ih]
      constructor
      · rintro (h | ⟨h1, h2⟩)
        · exact ⟨Or.inl h, h ▸ hl⟩
        · exact ⟨Or.inr h1, h2⟩
      · rintro ⟨h1 | h1, h2⟩
        · exact Or.inl h1
        · exact Or.inr ⟨h1, h2⟩

theorem removeIrrelevant_trace_shape (labels : Finset String)
    (cur : List String) (state : Finset String) :
    ∀ op ∈ (removeIrrelevant labels cur state).2, ∃ n, op = LabelOp.deleteLabel n := by
  induction cur generalizing state with
  | nil => simp [removeIrrelevant]
  | cons l rest ih =>
    by_cases hl : l ∈ labels
    · simpa only [removeIrrelevant, if_pos hl] using ih state
    · simp only [removeIrrelevant, if_neg hl, List.mem_cons]
      rintro op (rfl | h)
      · exact ⟨l, rfl⟩
      · exact ih (state.erase l) op h

theorem update_labels_state_after_deletes (A B : Finset String) :
    (removeIrrelevant B (A.sort (· ≤ ·)) A).1 = A ∩ B := by
  rw [removeIrrelevant_state]
  ext x
  simp only [Finset.mem_sdiff, List.mem_toFinset, List.mem_filter,
    Finset.mem_inter, Finset.mem_sort, decide_eq_true_eq]
  constructor
  · rintro ⟨hx, hmem⟩
    refine ⟨hx, ?_⟩
    by_contra hB
    exact hmem ⟨hx, hB⟩
  · rintro ⟨hx, hB⟩
    exact ⟨hx, fun h => h.2 hB⟩

/-- C10: `update_labels_on_issue` returns `True` on every invocation that
completes, whether or not any label was added or removed — the function
body ends in an unconditional `return True`. -/
theorem update_labels_on_issue_returns_true (A B : Finset String) :
    (update_labels_on_issue A B).2.2 = true := rfl

/-- C1: reconciliation is exact.  For every current label set `A` and
desired set `B`, `update_labels_on_issue` leaves the issue labelled exactly
`B`; its trace consists of the DELETEs — whose deleted names are exactly
the current names not in `B` — followed by the requests of
`add_labels_to_issue` invoked on the post-delete state with the full target
set `B`. -/
theorem update_labels_on_issue_reconciles (A B : Finset String) :
    (update_labels_on_issue A B).1 = B ∧
    (∀ n, LabelOp.deleteLabel n ∈ (update_labels_on_issue A B).2.1 ↔
      n ∈ A ∧ n ∉ B) ∧
    (∃ ds, (update_labels_on_issue A B).2.1 =
        ds ++ (add_labels_to_issue (A ∩ B) B).2.1 ∧
      ∀ op ∈ ds, ∃ n, op = LabelOp.deleteLabel n) := by
  refine ⟨?_, ?_, ?_⟩
  · show (add_labels_to_issue (removeIrrelevant B (A.sort (· ≤ ·)) A).1 B).1 = B
    rw [update_labels_state_after_deletes]
    by_cases h : (B \ (A ∩ B)).Nonempty
    · rw [add_labels_to_issue_of_nonempty _ _ h]
      ext x
      simp only [Finset.mem_union, Finset.mem_inter, Finset.mem_sdiff]
      constructor
      · rintro (⟨_, hx⟩ | ⟨hx, _⟩) <;> exact hx
      · intro hx
        by_cases hA : x ∈ A
        · exact Or.inl ⟨hA, hx⟩
        · exact Or.inr ⟨hx, fun hc => hA hc.1⟩
    · rw [Finset.not_nonempty_iff_eq_empty, Finset.sdiff_eq_empty_iff_subset] at h
      rw [add_labels_to_issue_of_subset _ _ h]
      exact Finset.Subset.antisymm Finset.inter_subset_right h
  · intro n
    show LabelOp.deleteLabel n ∈
        (removeIrrelevant B (A.sort (· ≤ ·)) A).2 ++
          (add_labels_to_issue (removeIrrelevant B (A.sort (· ≤ ·)) A).1 B).2.1 ↔ _
    rw [List.mem_append, removeIrrelevant_trace]
    constructor
    · rintro (h | h)
      · exact ⟨(Finset.mem_sort _).mp h.1, h.2⟩
      · obtain ⟨ns, hns⟩ := add_labels_to_issue_trace_shape _ _ _ h
        exact absurd hns (by simp)
    · intro h
      exact Or.inl ⟨(Finset.mem_sort _).mpr h.1, h.2⟩
  · refine ⟨(removeIrrelevant B (A.sort (· ≤ ·)) A).2, ?_,
      removeIrrelevant_trace_shape B _ A⟩
    show (removeIrrelevant B (A.sort (· ≤ ·)) A).2 ++
        (add_labels_to_issue (removeIrrelevant B (A.sort (· ≤ ·)) A).1 B).2.1 = _
    rw [update_labels_state_after_deletes]

/-- C2: `add_labels_to_issue` POSTs only the delta `new − current`, returns
`true` iff that delta is non-empty, and a second invocation with the same
label set finds nothing to add: it issues no POST, leaves the remote state
unchanged, and returns `false`. -/
theorem add_labels_to_issue_idempotent (A N : Finset String) :
    ((add_labels_to_issue A N).2.2 = true ↔ (N \ A).Nonempty) ∧
    ((add_labels_to_issue A N).2.1 =
      if (N \ A).Nonempty then [LabelOp.postLabels (N \ A)] else []) ∧
    ((add_labels_to_issue (add_labels_to_issue A N).1 N).1 =
      (add_labels_to_issue A N).1 ∧
     (add_labels_to_issue (add_labels_to_issue A N).1 N).2.1 = [] ∧
     (add_labels_to_issue (add_labels_to_issue A N).1 N).2.2 = false) := by
  have hsecond :
      add_labels_to_issue (add_labels_to_issue A N).1 N =
        ((add_labels_to_issue A N).1, [], false) :=
    add_labels_to_issue_of_subset _ _ (add_labels_to_issue_superset A N)
  by_cases h : (N \ A).Nonempty
  · rw [add_labels_to_issue_of_nonempty A N h] at hsecond ⊢
    rw [hsecond]
    exact ⟨by simp [h], by rw [if_pos h], rfl, rfl, rfl⟩
  · have hsub : N ⊆ A := by
      rw [← Finset.sdiff_eq_empty_iff_subset, ← Finset.not_nonempty_iff_eq_empty]
      exact h
    rw [add_labels_to_issue_of_subset A N hsub] at hsecond ⊢
    rw [hsecond]
    exact ⟨by simp [h], by rw [if_neg h], rfl, rfl, rfl⟩

/-- C3: the single-key unwrap rule is transparent.  For every record type
`T` (i.e. every validator for `list[T]`) and every list value `v`,
`parse_as(list[T], single-key mapping holding v)` equals
`parse_as(list[T], v)`: the mapping is unwrapped to its single value
before validating, and a bare list is validated directly. -/
theorem parse_as_unwrap_transparent {α : Type} (validator : Json → Except PyError α)
    (key : String) (v : List Json) :
    parse_as true validator (Json.obj [(key, Json.arr v)]) =
      parse_as true validator (Json.arr v) := rfl

/-- C6 counterexample: label identity is NOT name-based.  `labelBugA` and
`labelBugB` share the name `"bug"` yet are distinct, a singleton set
holding one does not contain the other, and `fetch_repo_labels` keeps both
— it does not deduplicate by name. -/
theorem fetch_repo_labels_not_name_based :
    labelBugA.name = labelBugB.name ∧
    labelBugA ≠ labelBugB ∧
    labelBugB ∉ fetch_repo_labels [labelBugA] ∧
    (fetch_repo_labels [labelBugA, labelBugB]).card = 2 := by
  refine ⟨rfl, ?_, ?_, ?_⟩ <;> decide

/-- C6 amended: label identity for set membership is full structural
equality on all fields (`id`, `name`, `color`, `description`), not the
name alone: `fetch_repo_labels` returns the fetched labels deduplicated by
that full equality, so its set contains exactly the parsed labels, and
labels sharing only a name stay distinct elements (the name-based
comparisons in the label functions operate on extracted name strings, not
on `GitHubLabel` values). -/
theorem fetch_repo_labels_full_equality (data : List GitHubLabel)
    (l : GitHubLabel) :
    (l ∈ fetch_repo_labels data ↔ l ∈ data) ∧
    (∀ l2 : GitHubLabel, l = l2 ↔
      l.id = l2.id ∧ l.name = l2.name ∧ l.color = l2.color ∧
        l.description = l2.description) := by
  constructor
  · exact List.mem_toFinset
  · intro l2
    constructor
    · rintro rfl; exact ⟨rfl, rfl, rfl, rfl⟩
    · obtain ⟨i, n, c, d⟩ := l
      obtain ⟨i2, n2, c2, d2⟩ := l2
      rintro ⟨h1, h2, h3, h4⟩
      simp_all

/-- C7 (code bug evidence): when the ref-creation step fails with
"Reference already exists", `create_repo_tag` indeed succeeds with the
already-created tag object — but when it fails with any other remote error
("Validation Failed" here) the error does NOT propagate: the `except`
block has no `raise`, so the error is swallowed and the same tag object is
returned as if creation had succeeded. -/
theorem create_repo_tag_swallows_ref_errors :
    create_repo_tag tagV1 (Except.error { message := "Reference already exists" }) =
      Except.ok tagV1 ∧
    create_repo_tag tagV1 (Except.error { message := "Validation Failed" }) =
      Except.ok tagV1 ∧
    ¬(∃ e, create_repo_tag tagV1 (Except.error { message := "Validation Failed" }) =
        Except.error e) := by
  have hall : ∀ (t : GitHubTag) (r : Except HttpError Unit),
      create_repo_tag t r = Except.ok t := by
    intro t r
    cases r with
    | ok u => rfl
    | error e =>
      show (if mentionsExistingRef e then Except.ok t else Except.ok t) =
        Except.ok t
      exact ite_self _
  refine ⟨hall _ _, hall _ _, ?_⟩
  rintro ⟨e, he⟩
  rw [hall] at he
  exact Except.noConfusion he

/-- C8: the request asks for the tag refs matching the pattern sorted by
creation descending with `per_page=1`, so the transport's response is
`matching.take 1` where `matching` lists the matching refs newest-first.
Both functions fail (the spec's `NotFoundError`, kind: no matching tag)
exactly when the matching set is empty, and otherwise return the latest
matching tag: the head of the creation-descending ordering. -/
theorem fetch_latest_tags_notfound_iff_empty (matching : List GitHubRef)
    (n : Nat) (hn : 0 < n) :
    (∀ response : List GitHubRef,
      (∃ e, fetch_latest_n_repo_tags response n = Except.error e) ↔ response = []) ∧
    ((∃ e, fetch_latest_n_repo_tags (matching.take 1) n = Except.error e) ↔
      matching = []) ∧
    (∀ t ts, matching = t :: ts →
      fetch_latest_n_repo_tags (matching.take 1) n = Except.ok [t] ∧
      fetch_latest_repo_tag (matching.take 1) = Except.ok t) := by
  have hgen : ∀ response : List GitHubRef,
      (∃ e, fetch_latest_n_repo_tags response n = Except.error e) ↔ response = [] := by
    intro response
    unfold fetch_latest_n_repo_tags
    cases response with
    | nil => simp
    | cons r rs => simp
  refine ⟨hgen, ?_, ?_⟩
  · rw [hgen]
    cases matching <;> simp
  · rintro t ts rfl
    have hslice : pySliceLast n [t] = [t] := by
      unfold pySliceLast
      rcases n with _ | m
      · rfl
      · simp
    constructor
    · simp [fetch_latest_n_repo_tags, hslice]
    · have h1 : pySliceLast 1 [t] = [t] := by simp [pySliceLast]
      simp [fetch_latest_repo_tag, fetch_latest_n_repo_tags, h1]

/-- C8 witness: at the concrete matching list `[r20, r11]` (newest-first)
and `n = 3`, the query does not fail and yields the newest matching ref
`r20`; at the empty matching list it fails. -/
theorem fetch_latest_tags_notfound_iff_empty_witness :
    ((∃ e, fetch_latest_n_repo_tags
        ([{ ref := "refs/tags/v2.0", sha := "aa" },
          { ref := "refs/tags/v1.1", sha := "bb" }].take 1) 3 = Except.error e) ↔
      ([{ ref := "refs/tags/v2.0", sha := "aa" },
        { ref := "refs/tags/v1.1", sha := "bb" }] : List GitHubRef) = []) ∧
    (fetch_latest_n_repo_tags
        ([{ ref := "refs/tags/v2.0", sha := "aa" },
          { ref := "refs/tags/v1.1", sha := "bb" }].take 1) 3 =
      Except.ok [{ ref := "refs/tags/v2.0", sha := "aa" }]) ∧
    (fetch_latest_repo_tag
        ([{ ref := "refs/tags/v2.0", sha := "aa" },
          { ref := "refs/tags/v1.1", sha := "bb" }].take 1) =
      Except.ok { ref := "refs/tags/v2.0", sha := "aa" }) := by
  have h := fetch_latest_tags_notfound_iff_empty
    [{ ref := "refs/tags/v2.0", sha := "aa" },
     { ref := "refs/tags/v1.1", sha := "bb" }] 3 (by decide)
  exact ⟨h.2.1, (h.2.2 _ _ rfl).1, (h.2.2 _ _ rfl).2⟩

theorem processPage_mem (ft : FetchType) (n : Nat) (items acc : List IssueItem) :
    ∀ it ∈ processPage ft n acc items,
      it ∈ acc ∨ (it ∈ items ∧ skipItem ft it = false) := by
  induction items generalizing acc with
  | nil =>
    intro it hit
    exact Or.inl hit
  | cons item rest ih =>
    intro it hit
    rw [processPage] at hit
    by_cases hskip : skipItem ft item = true
    · rw [if_pos hskip] at hit
      rcases ih acc it hit with h | ⟨h1, h2⟩
      · exact Or.inl h
      · exact Or.inr ⟨List.mem_cons_of_mem _ h1, h2⟩
    · rw [if_neg hskip] at hit
      rw [Bool.not_eq_true] at hskip
      by_cases hlen : (acc ++ [item]).length = n
      · rw [if_pos hlen] at hit
        rcases List.mem_append.mp hit with h | h
        · exact Or.inl h
        · rw [List.mem_singleton] at h
          exact Or.inr ⟨h ▸ List.mem_cons_self _ _, h ▸ hskip⟩
      · rw [if_neg hlen] at hit
        rcases ih (acc ++ [item]) it hit with h | ⟨h1, h2⟩
        · rcases List.mem_append.mp h with h | h
          · exact Or.inl h
          · rw [List.mem_singleton] at h
            exact Or.inr ⟨h ▸ List.mem_cons_self _ _, h ▸ hskip⟩
        · exact Or.inr ⟨List.mem_cons_of_mem _ h1, h2⟩

theorem fetchLoop_mem (remote : List IssueItem) (ft : FetchType)
    (n per_page : Nat) :
    ∀ fuel page issues result,
      fetchLoop remote ft n per_page fuel page issues = some result →
      ∀ it ∈ result, it ∈ issues ∨ skipItem ft it = false := by
  intro fuel
  induction fuel with
  | zero =>
    intro page issues result h
    exact absurd h (by rw [fetchLoop]; exact Option.noConfusion)
  | succ f ih =>
    intro page issues result h it hit
    rw [fetchLoop] at h
    by_cases hguard : issues.length < n
    · rw [if_pos hguard] at h
      set size := min (n - issues.length) per_page with hsize
      set new_items := (remote.drop ((page - 1) * size)).take size with hni
      by_cases hempty : new_items.isEmpty
      · rw [if_pos hempty] at h
        exact Or.inl ((Option.some.injEq _ _).mp h ▸ hit)
      · rw [if_neg hempty] at h
        by_cases hdead : ft ≠ FetchType.all ∧ new_items.length = 0
        · rw [if_pos hdead] at h
          have : it ∈ processPage ft n issues new_items :=
            (Option.some.injEq _ _).mp h ▸ hit
          rcases processPage_mem ft n new_items issues it this with h1 | ⟨_, h2⟩
          · exact Or.inl h1
          · exact Or.inr h2
        · rw [if_neg hdead] at h
          rcases ih (page + 1) (processPage ft n issues new_items) result h it hit with
            h1 | h1
          · rcases processPage_mem ft n new_items issues it h1 with h2 | ⟨_, h2⟩
            · exact Or.inl h2
            · exact Or.inr h2
          · exact Or.inr h1
    · rw [if_neg hguard] at h
      exact Or.inl ((Option.some.injEq _ _).mp h ▸ hit)

/-- C4: the `fetch_type` filter is sound.  Whenever `fetch_repo_issues`
returns a result over any remote item sequence, with `fetch_type="pulls"`
every returned item carries the `pull_request` marker, and with
`fetch_type="issues"` none does. -/
theorem fetch_repo_issues_respects_fetch_type (remote : List IssueItem)
    (n per_page : Nat) (ft : FetchType) (result : List IssueItem)
    (h : fetch_repo_issues remote ft n per_page = some result) :
    ∀ it ∈ result,
      (ft = FetchType.pulls → isPullRequest it = true) ∧
      (ft = FetchType.issues → isPullRequest it = false) := by
  intro it hit
  rcases fetchLoop_mem remote ft n per_page (remote.length + 1) 1 [] result h it hit with
    hmem | hskip
  · exact absurd hmem (List.not_mem_nil it)
  · constructor
    · rintro rfl
      revert hskip
      rw [skipItem]
      cases hpr : isPullRequest it <;> simp
    · rintro rfl
      revert hskip
      rw [skipItem]
      cases hpr : isPullRequest it <;> simp

/-- C4 witness: on the remote `[prItem, plainItem]` with
`fetch_type="pulls"`, the loop returns `[prItem]`, and the theorem applied
there yields that `prItem` carries the marker. -/
theorem fetch_repo_issues_respects_fetch_type_witness :
    isPullRequest prItem = true :=
  (fetch_repo_issues_respects_fetch_type [prItem, plainItem] 10 100
    FetchType.pulls [prItem] (by decide) prItem (List.mem_singleton.mpr rfl)).1 rfl

theorem countMatching_nil (ft : FetchType) : countMatching ft [] = 0 := rfl

theorem countMatching_cons_of_skip (ft : FetchType) (item : IssueItem)
    (rest : List IssueItem) (h : skipItem ft item = true) :
    countMatching ft (item :: rest) = countMatching ft rest := by
  simp [countMatching, List.filter_cons, h]

theorem countMatching_cons_of_keep (ft : FetchType) (item : IssueItem)
    (rest : List IssueItem) (h : skipItem ft item = false) :
    countMatching ft (item :: rest) = countMatching ft rest + 1 := by
  simp [countMatching, List.filter_cons, h]

theorem countMatching_append (ft : FetchType) (l1 l2 : List IssueItem) :
    countMatching ft (l1 ++ l2) = countMatching ft l1 + countMatching ft l2 := by
  simp [countMatching, List.filter_append]

theorem countMatching_take_add (ft : FetchType) (l : List IssueItem) (a b : Nat) :
    countMatching ft (l.take (a + b)) =
      countMatching ft (l.take a) + countMatching ft ((l.drop a).take b) := by
  rw [List.take_add, countMatching_append]

theorem countMatching_take_mono (ft : FetchType) (l : List IssueItem)
    {a b : Nat} (h : a ≤ b) :
    countMatching ft (l.take a) ≤ countMatching ft (l.take b) := by
  rw [show b = a + (b - a) from by omega, countMatching_take_add]
  exact Nat.le_add_right _ _

theorem processPage_length (ft : FetchType) (n : Nat) (items acc : List IssueItem)
    (hacc : acc.length < n) :
    (processPage ft n acc items).length ≤ n ∧
    acc.length ≤ (processPage ft n acc items).length ∧
    ((processPage ft n acc items).length = n ∨
      (processPage ft n acc items).length = acc.length + countMatching ft items) := by
  induction items generalizing acc with
  | nil =>
    rw [processPage]
    exact ⟨Nat.le_of_lt hacc, Nat.le_refl _,
      Or.inr (by rw [countMatching_nil]; omega)⟩
  | cons item rest ih =>
    rw [processPage]
    by_cases hskip : skipItem ft item = true
    · rw [if_pos hskip, countMatching_cons_of_skip ft item rest hskip]
      exact ih acc hacc
    · rw [Bool.not_eq_true] at hskip
      rw [if_neg (by rw [hskip]; exact Bool.false_ne_true),
        countMatching_cons_of_keep ft item rest hskip]
      by_cases hlen : (acc ++ [item]).length = n
      · rw [if_pos hlen]
        rw [List.length_append, List.length_singleton] at hlen ⊢
        exact ⟨Nat.le_of_eq hlen, by omega, Or.inl hlen⟩
      · rw [if_neg hlen]
        have hlt : (acc ++ [item]).length < n := by
          rw [List.length_append, List.length_singleton] at hlen ⊢
          omega
        obtain ⟨h1, h2, h3⟩ := ih (acc ++ [item]) hlt
        refine ⟨h1, ?_, ?_⟩
        · calc acc.length ≤ (acc ++ [item]).length := by
                rw [List.length_append]; omega
            _ ≤ _ := h2
        · rcases h3 with h3 | h3
          · exact Or.inl h3
          · refine Or.inr ?_
            rw [h3, List.length_append, List.length_singleton]
            omega

theorem fetchLoop_total (remote : List IssueItem) (ft : FetchType)
    (n per_page : Nat) :
    ∀ fuel page issues,
      remote.length + 1 < page + fuel → 1 ≤ fuel →
      (fetchLoop remote ft n per_page fuel page issues).isSome := by
  intro fuel
  induction fuel with
  | zero =>
    intro page issues hsum hfuel
    exact absurd hfuel (by omega)
  | succ f ih =>
    intro page issues hsum _
    rw [fetchLoop]
    by_cases hguard : issues.length < n
    · rw [if_pos hguard]
      set size := min (n - issues.length) per_page with hsize
      set new_items := (remote.drop ((page - 1) * size)).take size with hni
      by_cases hempty : new_items.isEmpty
      · rw [if_pos hempty]
        exact Option.isSome_some
      · rw [if_neg hempty]
        by_cases hdead : ft ≠ FetchType.all ∧ new_items.length = 0
        · rw [if_pos hdead]
          exact Option.isSome_some
        · rw [if_neg hdead]
          have hne : new_items ≠ [] := by
            intro hcon
            rw [hcon] at hempty
            exact hempty rfl
          have hsz : size ≠ 0 := by
            intro hcon
            apply hne
            rw [hni, hcon, List.take_zero]
          have hdrop : (page - 1) * size < remote.length := by
            by_contra hcon
            apply hne
            rw [hni, List.drop_eq_nil_of_le (by omega), List.take_nil]
          have hpage : page ≤ remote.length := by
            have h1 : page - 1 ≤ (page - 1) * size :=
              Nat.le_mul_of_pos_right _ (Nat.pos_of_ne_zero hsz)
            omega
          exact ih (page + 1) (processPage ft n issues new_items) (by omega) (by omega)
    · rw [if_neg hguard]
      exact Option.isSome_some

theorem fetchLoop_count (remote : List IssueItem) (ft : FetchType)
    (n per_page : Nat) (hpp : 0 < per_page) :
    ∀ fuel page issues result,
      1 ≤ page →
      issues.length ≤ n →
      (issues.length < n →
        countMatching ft
            (remote.take ((page - 1) * min (n - issues.length) per_page)) ≤
          issues.length) →
      fetchLoop remote ft n per_page fuel page issues = some result →
      result.length ≤ n ∧ (n ≤ countMatching ft remote → result.length = n) := by
  intro fuel
  induction fuel with
  | zero =>
    intro page issues result _ _ _ h
    exact absurd h (by rw [fetchLoop]; exact Option.noConfusion)
  | succ f ih =>
    intro page issues result hpage hlen hinv h
    rw [fetchLoop] at h
    by_cases hguard : issues.length < n
    · rw [if_pos hguard] at h
      set size := min (n - issues.length) per_page with hsize
      have hs1 : 1 ≤ size := by
        rw [hsize]
        exact Nat.le_min.mpr ⟨by omega, hpp⟩
      set new_items := (remote.drop ((page - 1) * size)).take size with hni
      by_cases hempty : new_items.isEmpty
      · rw [if_pos hempty] at h
        obtain rfl : issues = result := (Option.some.injEq _ _).mp h
        have hnil : new_items = [] := by
          cases hx : new_items
          · rfl
          · rw [hx] at hempty
            exact absurd hempty (by simp)
        have hpast : remote.length ≤ (page - 1) * size := by
          by_contra hcon
          have hne' : new_items ≠ [] := by
            rw [hni]
            have h1 : remote.drop ((page - 1) * size) ≠ [] := by
              intro hc
              have hlen0 := congrArg List.length hc
              rw [List.length_drop] at hlen0
              simp only [List.length_nil] at hlen0
              omega
            intro hc
            rcases List.take_eq_nil_iff.mp hc with hc1 | hc1
            · omega
            · exact h1 hc1
          exact hne' hnil
        have hall : remote.take ((page - 1) * size) = remote :=
          List.take_of_length_le hpast
        have hcm : countMatching ft remote ≤ issues.length := by
          rw [← hall]
          exact hinv hguard
        exact ⟨hlen, fun hge => by omega⟩
      · rw [if_neg hempty] at h
        have hne : new_items ≠ [] := by
          intro hcon
          rw [hcon] at hempty
          exact hempty rfl
        by_cases hdead : ft ≠ FetchType.all ∧ new_items.length = 0
        · exact absurd (List.length_eq_zero.mp hdead.2) hne
        · rw [if_neg hdead] at h
          obtain ⟨hle_n, hmono, hdisj⟩ :=
            processPage_length ft n new_items issues hguard
          refine ih (page + 1) (processPage ft n issues new_items) result
            (by omega) hle_n ?_ h
          intro hlt'
          rcases hdisj with hdisj | hdisj
          · omega
          · set issues' := processPage ft n issues new_items with hi'
            set s' := min (n - issues'.length) per_page with hs'
            have hs'le : s' ≤ size := by
              rw [hs', hsize]
              exact min_le_min (by omega) (Nat.le_refl per_page)
            have h1 : (page + 1 - 1) * s' ≤ page * size := by
              rw [Nat.add_sub_cancel]
              exact Nat.mul_le_mul_left page hs'le
            have h2 : page * size = (page - 1) * size + size := by
              conv_lhs => rw [show page = (page - 1) + 1 from by omega]
              rw [Nat.succ_mul]
            calc countMatching ft (remote.take ((page + 1 - 1) * s'))
                ≤ countMatching ft (remote.take (page * size)) :=
                  countMatching_take_mono ft remote h1
              _ = countMatching ft (remote.take ((page - 1) * size)) +
                    countMatching ft new_items := by
                  rw [h2, countMatching_take_add, hni]
              _ ≤ issues.length + countMatching ft new_items :=
                  Nat.add_le_add_right (hinv hguard) _
              _ = issues'.length := by rw [hdisj]
    · rw [if_neg hguard] at h
      obtain rfl : issues = result := (Option.some.injEq _ _).mp h
      exact ⟨hlen, fun _ => by omega⟩

/-- C5: for every `n`, every remote item sequence and every positive page
size, `fetch_repo_issues` terminates within the supplied fuel even though
the remote signals no end (the loop stops at the first empty page or once
`n` items are accumulated), returns at most `n` items, and returns exactly
`n` items whenever at least `n` matching items exist remotely. -/
theorem fetch_repo_issues_pagination (remote : List IssueItem) (ft : FetchType)
    (n per_page : Nat) (hpp : 0 < per_page) :
    ∃ result, fetch_repo_issues remote ft n per_page = some result ∧
      result.length ≤ n ∧
      (n ≤ countMatching ft remote → result.length = n) := by
  have hterm := fetchLoop_total remote ft n per_page (remote.length + 1) 1 []
    (by omega) (by omega)
  obtain ⟨result, hres⟩ := Option.isSome_iff_exists.mp hterm
  refine ⟨result, hres, ?_⟩
  refine fetchLoop_count remote ft n per_page hpp (remote.length + 1) 1 [] result
    (Nat.le_refl 1) (by simp) ?_ hres
  intro _
  simp [countMatching_nil]

/-- C5 witness: three pull requests on the remote, `n = 2`, `per_page = 1`
(so the loop truly paginates): the call returns some result of length
exactly 2. -/
theorem fetch_repo_issues_pagination_witness :
    ∃ result,
      fetch_repo_issues
          [prItem, { title := "pr two", pull_request := some "u2" },
            { title := "pr three", pull_request := some "u3" }]
          FetchType.pulls 2 1 = some result ∧
      result.length ≤ 2 ∧
      (2 ≤ countMatching FetchType.pulls
          [prItem, { title := "pr two", pull_request := some "u2" },
            { title := "pr three", pull_request := some "u3" }] →
        result.length = 2) :=
  fetch_repo_issues_pagination
    [prItem, { title := "pr two", pull_request := some "u2" },
      { title := "pr three", pull_request := some "u3" }]
    FetchType.pulls 2 1 (by decide)

theorem td_nil (fs : String → List DirEntry) (pattern : Option (String → Bool))
    (levels level : Nat) :
    traverse_directory fs pattern levels level [] = "" := by
  simp [traverse_directory]

theorem td_filtered (fs : String → List DirEntry)
    (pattern : Option (String → Bool)) (levels level : Nat)
    (item : DirEntry) (rest : List DirEntry)
    (h : filteredOut pattern item.name = true) :
    traverse_directory fs pattern levels level (item :: rest) =
      traverse_directory fs pattern levels level rest := by
  simp [traverse_directory, h]

theorem td_dir (fs : String → List DirEntry)
    (pattern : Option (String → Bool)) (levels level : Nat)
    (item : DirEntry) (rest : List DirEntry)
    (h : filteredOut pattern item.name = false) (hk : item.kind = EntryKind.dir) :
    traverse_directory fs pattern levels level (item :: rest) =
      indent level ++ "📁 " ++ item.name ++ "\n" ++
        (if level < levels then
          traverse_directory fs pattern levels (level + 1) (fs item.path)
        else ("")) ++
        traverse_directory fs pattern levels level rest := by
  simp [traverse_directory, h, hk]

theorem td_file (fs : String → List DirEntry)
    (pattern : Option (String → Bool)) (levels level : Nat)
    (item : DirEntry) (rest : List DirEntry)
    (h : filteredOut pattern item.name = false) (hk : item.kind = EntryKind.file) :
    traverse_directory fs pattern levels level (item :: rest) =
      indent level ++ "📄 " ++ item.name ++ "\n" ++
        traverse_directory fs pattern levels level rest := by
  simp [traverse_directory, h, hk]

theorem td_other (fs : String → List DirEntry)
    (pattern : Option (String → Bool)) (levels level : Nat)
    (item : DirEntry) (rest : List DirEntry)
    (h : filteredOut pattern item.name = false) (hk : item.kind = EntryKind.other) :
    traverse_directory fs pattern levels level (item :: rest) =
      traverse_directory fs pattern levels level rest := by
  simp [traverse_directory, h, hk]

theorem te_nil (fs : String → List DirEntry) (pattern : Option (String → Bool))
    (levels level : Nat) :
    traverseEntries fs pattern levels level [] = [] := by
  simp [traverseEntries]

theorem te_filtered (fs : String → List DirEntry)
    (pattern : Option (String → Bool)) (levels level : Nat)
    (item : DirEntry) (rest : List DirEntry)
    (h : filteredOut pattern item.name = true) :
    traverseEntries fs pattern levels level (item :: rest) =
      traverseEntries fs pattern levels level rest := by
  simp [traverseEntries, h]

theorem te_dir (fs : String → List DirEntry)
    (pattern : Option (String → Bool)) (levels level : Nat)
    (item : DirEntry) (rest : List DirEntry)
    (h : filteredOut pattern item.name = false) (hk : item.kind = EntryKind.dir) :
    traverseEntries fs pattern levels level (item :: rest) =
      (level, EntryKind.dir, item.name) ::
        ((if level < levels then
            traverseEntries fs pattern levels (level + 1) (fs item.path)
          else []) ++
          traverseEntries fs pattern levels level rest) := by
  simp [traverseEntries, h, hk]

theorem te_file (fs : String → List DirEntry)
    (pattern : Option (String → Bool)) (levels level : Nat)
    (item : DirEntry) (rest : List DirEntry)
    (h : filteredOut pattern item.name = false) (hk : item.kind = EntryKind.file) :
    traverseEntries fs pattern levels level (item :: rest) =
      (level, EntryKind.file, item.name) ::
        traverseEntries fs pattern levels level rest := by
  simp [traverseEntries, h, hk]

theorem te_other (fs : String → List DirEntry)
    (pattern : Option (String → Bool)) (levels level : Nat)
    (item : DirEntry) (rest : List DirEntry)
    (h : filteredOut pattern item.name = false) (hk : item.kind = EntryKind.other) :
    traverseEntries fs pattern levels level (item :: rest) =
      traverseEntries fs pattern levels level rest := by
  simp [traverseEntries, h, hk]

theorem string_empty_append (s : String) : "" ++ s = s := by
  cases s
  rfl

theorem string_append_empty (s : String) : s ++ "" = s := by
  cases s with
  | mk data =>
    show String.mk (data ++ []) = String.mk data
    rw [List.append_nil]

theorem renderEntries_append (a b : List (Nat × EntryKind × String)) :
    renderEntries (a ++ b) = renderEntries a ++ renderEntries b := by
  induction a with
  | nil =>
    rw [List.nil_append, renderEntries, string_empty_append]
  | cons e a ih =>
    rw [List.cons_append, renderEntries, renderEntries, ih, String.append_assoc]

theorem traverse_directory_renders (fs : String → List DirEntry)
    (pattern : Option (String → Bool)) (levels : Nat) :
    ∀ K level items, levels + 1 - level ≤ K → level ≤ levels →
      traverse_directory fs pattern levels level items =
        renderEntries (traverseEntries fs pattern levels level items) := by
  intro K
  induction K with
  | zero =>
    intro level items hK hlev
    omega
  | succ k ihK =>
    intro level items hK hlev
    induction items with
    | nil => rw [td_nil, te_nil, renderEntries]
    | cons item rest ihrest =>
      by_cases hfilt : filteredOut pattern item.name = true
      · rw [td_filtered fs pattern levels level item rest hfilt,
          te_filtered fs pattern levels level item rest hfilt]
        exact ihrest
      · rw [Bool.not_eq_true] at hfilt
        cases hkind : item.kind
        · rw [td_dir fs pattern levels level item rest hfilt hkind,
            te_dir fs pattern levels level item rest hfilt hkind,
            renderEntries, renderEntries_append, ihrest, renderEntry]
          by_cases hlt : level < levels
          · rw [if_pos hlt, if_pos hlt,
              ihK (level + 1) (fs item.path) (by omega) (by omega)]
            rw [String.append_assoc]
          · rw [if_neg hlt, if_neg hlt, renderEntries, string_empty_append,
              string_append_empty]
        · rw [td_file fs pattern levels level item rest hfilt hkind,
            te_file fs pattern levels level item rest hfilt hkind,
            renderEntries, ihrest, renderEntry]
        · rw [td_other fs pattern levels level item rest hfilt hkind,
            te_other fs pattern levels level item rest hfilt hkind]
          exact ihrest

theorem traverseEntries_bounded_filtered (fs : String → List DirEntry)
    (pattern : Option (String → Bool)) (levels : Nat) :
    ∀ K level items, levels + 1 - level ≤ K → level ≤ levels →
      ∀ e ∈ traverseEntries fs pattern levels level items,
        (level ≤ e.1 ∧ e.1 ≤ levels) ∧
        (∀ pm, pattern = some pm → pm e.2.2 = true) := by
  intro K
  induction K with
  | zero =>
    intro level items hK hlev
    omega
  | succ k ihK =>
    intro level items hK hlev
    induction items with
    | nil =>
      intro e he
      rw [te_nil] at he
      exact absurd he (List.not_mem_nil e)
    | cons item rest ihrest =>
      intro e he
      by_cases hfilt : filteredOut pattern item.name = true
      · rw [te_filtered fs pattern levels level item rest hfilt] at he
        exact ihrest e he
      · rw [Bool.not_eq_true] at hfilt
        have hname : ∀ pm, pattern = some pm → pm item.name = true := by
          intro pm hpm
          rw [hpm, filteredOut] at hfilt
          cases hx : pm item.name
          · rw [hx] at hfilt
            exact absurd hfilt (by decide)
          · rfl
        cases hkind : item.kind
        · rw [te_dir fs pattern levels level item rest hfilt hkind] at he
          rcases List.mem_cons.mp he with rfl | he2
          · exact ⟨⟨Nat.le_refl _, hlev⟩, hname⟩
          · rcases List.mem_append.mp he2 with he3 | he3
            · by_cases hlt : level < levels
              · rw [if_pos hlt] at he3
                obtain ⟨⟨h1, h2⟩, h3⟩ :=
                  ihK (level + 1) (fs item.path) (by omega) (by omega) e he3
                exact ⟨⟨by omega, h2⟩, h3⟩
              · rw [if_neg hlt] at he3
                exact absurd he3 (List.not_mem_nil e)
            · exact ihrest e he3
        · rw [te_file fs pattern levels level item rest hfilt hkind] at he
          rcases List.mem_cons.mp he with rfl | he2
          · exact ⟨⟨Nat.le_refl _, hlev⟩, hname⟩
          · exact ihrest e he2
        · rw [te_other fs pattern levels level item rest hfilt hkind] at he
          exact ihrest e he

/-- C9: directory traversal depth is bounded and the glob filter is
exhaustive.  `fetch_directory_structure` renders exactly a list of entries
(in order); every rendered entry sits at depth at most `levels` below the
starting directory — descent past `levels` simply stops rather than
erroring, the traversal being total by construction — and when a pattern
is given, every rendered entry's name matches it. -/
theorem fetch_directory_structure_bounded_filtered (fs : String → List DirEntry)
    (pattern : Option (String → Bool)) (levels : Nat) (directory_path : String) :
    ∃ es, fetch_directory_structure fs pattern levels directory_path =
        renderEntries es ∧
      ∀ e ∈ es, e.1 ≤ levels ∧ (∀ pm, pattern = some pm → pm e.2.2 = true) := by
  refine ⟨traverseEntries fs pattern levels 0 (fs directory_path), ?_, ?_⟩
  · exact traverse_directory_renders fs pattern levels (levels + 1) 0
      (fs directory_path) (by omega) (by omega)
  · intro e he
    obtain ⟨⟨_, h2⟩, h3⟩ := traverseEntries_bounded_filtered fs pattern levels
      (levels + 1) 0 (fs directory_path) (by omega) (by omega) e he
    exact ⟨h2, h3⟩
